import Mathlib

/-!
Verification of the `rkyv_wrappers` archive adapters.

The development shallowly embeds the two adapters of the crate:

* `as_hashmap.rs` — `AsHashMap`, archiving a `Vec<(K, V)>` directly as an
  archived hash map (no intermediate `HashMap`), together with the archived
  map's builder, probe lookup and entry iteration;
* `bitvec.rs` — `BitVecWrapper`, archiving a `BitVec<T, O>` as an archived
  word array plus the exact logical bit length, with a zero-copy bit view.

The sink (serializer), the archived word-array primitive and the archived
hash-map internals live outside the crate; they are modelled from the design
document, as indicated on each such definition.  Machine words are modelled
as naturals, positions as naturals, relative offsets as integers.
-/

set_option autoImplicit false

namespace RkyvWrappers

/-! ### Errors and the sink collaborator -/

/-- Error kinds of the serialization pipeline: `sinkFailure` is propagated
verbatim from the underlying sink, `elementFailure` signals that a nested
key/value/word conversion failed. -/
inductive SErr where
  | sinkFailure : SErr
  | elementFailure : SErr
deriving DecidableEq

/-- Boolean test for the error side of an `Except` result. -/
def isErrE {ε α : Type} : Except ε α → Bool
  | .error _ => true
  | .ok _ => false

/-- Modelled from the spec: the append-only byte sink (external collaborator).
`written` records the items written so far, so the current write position is
`written.length`; `budget` injects sink failures — `none` means the sink never
fails, `some b` makes any write at position `b` or beyond report a failure
(e.g. scratch exhaustion). -/
structure Sink (ι : Type) where
  written : List ι
  budget : Option Nat
deriving DecidableEq

/-- Writes one item to the sink, failing exactly when the sink's budget is
exhausted; on failure nothing is appended. -/
def writeItem {ι : Type} (it : ι) (s : Sink ι) : Sink ι × Except SErr Unit :=
  match s.budget with
  | none => ({ s with written := s.written ++ [it] }, .ok ())
  | some b =>
    if s.written.length < b then ({ s with written := s.written ++ [it] }, .ok ())
    else (s, .error .sinkFailure)

/-- Writes a list of items in order, stopping at the first sink failure and
leaving the already-written items in place (no rollback). -/
def writeItems {ι : Type} : List ι → Sink ι → Sink ι × Except SErr Unit
  | [], s => (s, .ok ())
  | it :: rest, s =>
    match writeItem it s with
    | (s', .ok _) => writeItems rest s'
    | (s', .error e) => (s', .error e)

/-! ### The bit-vector adapter (`bitvec.rs`) -/

/-- In-memory `BitVec<T, O>` backed by `w`-bit words: `words` is what
`as_raw_slice` exposes (each word a natural below `2 ^ w`), `len` the logical
bit length.  Bits of the last word at positions `len % w` and beyond are
unspecified padding. -/
structure BitVecM where
  words : List Nat
  len : Nat
deriving DecidableEq

/-- Well-formedness of a `BitVec` over `w`-bit words: the word width is
positive and `as_raw_slice` returns exactly the words occupied by the live
bits (`⌈len / w⌉` of them). -/
def BVWF (w : Nat) (bv : BitVecM) : Prop :=
  0 < w ∧ bv.words.length = (bv.len + w - 1) / w

/-- Bit `i` of a word array under the bit order `ord`: `ord` maps the in-word
bit index to the physical bit position of the word (the identity models
`Lsb0`). -/
def wordBit (w : Nat) (ord : Nat → Nat) (words : List Nat) (i : Nat) : Bool :=
  Nat.testBit (words.getD (i / w) 0) (ord (i % w))

/-- Bit-addressable view over a whole word array (`view_bits::<O>()`), covering
the full rounded-up capacity of `words.length * w` bits. -/
def viewBits (w : Nat) (ord : Nat → Nat) (words : List Nat) : List Bool :=
  (List.range (words.length * w)).map (wordBit w ord words)

/-- Logical bits of an in-memory bit-vector: the first `len` bits over its
backing words.  Two `BitVec`s are equal iff their logical bits agree. -/
def bvBits (w : Nat) (ord : Nat → Nat) (bv : BitVecM) : List Bool :=
  (List.range bv.len).map (wordBit w ord bv.words)

/-- `BitVec::from_vec`: builds a bit-vector owning the given word buffer, with
logical length the buffer's full bit capacity. -/
def bvFromVec (w : Nat) (vec : List Nat) : BitVecM :=
  { words := vec, len := vec.length * w }

/-- `BitVec::truncate`: shortens the logical length to at most `n`; the backing
words are kept, dropped bits simply become padding. -/
def bvTruncate (bv : BitVecM) (n : Nat) : BitVecM :=
  { words := bv.words, len := min n bv.len }

/-- Items the bit-vector adapter writes to the sink: raw backing words, and the
scalar first-pass serialization of the bit length. -/
inductive SinkItem where
  | word : Nat → SinkItem
  | scalar : Nat → SinkItem
deriving DecidableEq

/-- Word value carried by a sink item (dereferencing an archived word). -/
def itemWord : SinkItem → Nat
  | .word n => n
  | .scalar n => n

/-- `VecResolver`: the position at which the backing word array was written,
captured by the first serialization pass and consumed by `resolve`. -/
structure VecResolver where
  pos : Nat
deriving DecidableEq

/-- Modelled from the spec: `ArchivedVec::serialize_from_slice`, the archived
word-array primitive — writes the words contiguously at the sink's current
position and returns a resolver capturing that position. -/
def serializeFromSlice (words : List Nat) (s : Sink SinkItem) :
    Sink SinkItem × Except SErr VecResolver :=
  match writeItems (words.map SinkItem.word) s with
  | (s', .ok _) => (s', .ok ⟨s.written.length⟩)
  | (s', .error e) => (s', .error e)

/-- Modelled from the spec: `usize::serialize`, the scalar first-pass
serialization step of the bit length, emitted in sequence after the word
array. -/
def usizeSerialize (n : Nat) (s : Sink SinkItem) : Sink SinkItem × Except SErr Unit :=
  writeItem (SinkItem.scalar n) s

/-- `BitVecWrapper::serialize_with`: writes the raw backing words (padding bits
of the last word included) via the archived word-array primitive, then
serializes the exact logical bit length as its own scalar field, and returns
the word array's resolver. -/
def bitvecSerializeWith (field : BitVecM) (s : Sink SinkItem) :
    Sink SinkItem × Except SErr VecResolver :=
  match serializeFromSlice field.words s with
  | (s', .ok resolver) =>
    match usizeSerialize field.len s' with
    | (s'', .ok _) => (s'', .ok resolver)
    | (s'', .error e) => (s'', .error e)
  | (s', .error e) => (s', .error e)

/-- Archived word-array field (`ArchivedVec`): a relative offset from the
field's own position to its first word, and the word count. -/
structure AVecRec where
  off : Int
  len : Nat
deriving DecidableEq

/-- `ArchivedBitVec`: the archived word-array field plus the exact logical bit
length stored separately (the word array's capacity is rounded up to the word
width, so the bit length cannot be recovered from it). -/
structure ABitVecRec where
  inner : AVecRec
  bit_len : Nat
deriving DecidableEq

/-- Byte offset of the `inner` field inside `ArchivedBitVec` (first projection
of `out_field!`). -/
def fpInner : Nat := 0

/-- Byte offset of the `bit_len` field inside `ArchivedBitVec` (first
projection of `out_field!`). -/
def fpBitLen : Nat := 1

/-- Modelled from the spec: `ArchivedVec::resolve_from_slice` — writes the
word-array field as the relative offset from the field's final position `pos`
to the position captured by the resolver, plus the word count. -/
def resolveFromSlice (words : List Nat) (pos : Nat) (resolver : VecResolver) : AVecRec :=
  { off := (resolver.pos : Int) - (pos : Int), len := words.length }

/-- `BitVecWrapper::resolve_with`: given the record's own final position `pos`,
builds the output record — the resolved word-array field at offset `fpInner`
and the exact bit length — in the caller-provided output slot.  The sink is
threaded unchanged to express that resolving performs no write besides the
output record. -/
def bitvecResolveWith (field : BitVecM) (pos : Nat) (resolver : VecResolver)
    (s : Sink SinkItem) : Sink SinkItem × ABitVecRec :=
  (s, { inner := resolveFromSlice field.words (pos + fpInner) resolver,
        bit_len := field.len })

/-- Reads `len` words starting at position `pos` of the archive buffer (the
dereference of a relative pointer into the buffer). -/
def wordsAt (buf : List SinkItem) (pos len : Nat) : List Nat :=
  ((buf.drop pos).take len).map itemWord

/-- Dereferences an archived word-array field living at position `pos` of the
buffer: follows the relative offset and reads `len` contiguous words. -/
def avecDeref (buf : List SinkItem) (pos : Nat) (a : AVecRec) : List Nat :=
  wordsAt buf ((pos : Int) + a.off).toNat a.len

/-- `ArchivedBitVec::deref` (and `as_slice`): the bit-addressable view over the
archived words, truncated to exactly `bit_len` bits; `recPos` is the position
of the record inside the buffer `buf`. -/
def abvDeref (w : Nat) (ord : Nat → Nat) (buf : List SinkItem) (recPos : Nat)
    (a : ABitVecRec) : List Bool :=
  (viewBits w ord (avecDeref buf (recPos + fpInner) a.inner)).take a.bit_len

/-- Modelled from the spec: element-wise `ArchivedVec::deserialize` — converts
each archived word with the deserializer's word conversion `dw` into an owned
buffer, propagating the first element failure. -/
def avecDeserialize (dw : Nat → Except SErr Nat) (buf : List SinkItem)
    (pos : Nat) (a : AVecRec) : Except SErr (List Nat) :=
  (avecDeref buf pos a).mapM dw

/-- `BitVecWrapper::deserialize_with`: deserializes the archived word array
into an owned buffer, deserializes the stored bit length (`du`), rebuilds the
bit-vector from the full buffer, and only then truncates it to the bit
length. -/
def bitvecDeserializeWith (w : Nat) (dw du : Nat → Except SErr Nat)
    (buf : List SinkItem) (recPos : Nat) (a : ABitVecRec) : Except SErr BitVecM := do
  let vec ← avecDeserialize dw buf (recPos + fpInner) a.inner
  let bl ← du a.bit_len
  pure (bvTruncate (bvFromVec w vec) bl)

/-! ### The map adapter (`as_hashmap.rs`) -/

/-- Modelled from the spec: the bucket-array sizing policy of the archived
map — a fixed capacity derived from the entry count alone.  The exact ratio is
left open by the design; the policy here exceeds the entry count so probing
always terminates at a free bucket, and is identical on the write and read
paths. -/
def capacityFor (n : Nat) : Nat := 2 * n + 1

/-- Bucket array of the archived map: each bucket is empty or holds one entry
(the contiguous entry array plus bucket-index array, with the index
indirection flattened into buckets holding their entry directly). -/
abbrev Slots (K V : Type) : Type := List (Option (K × V))

/-- Linear-probe scan: starting from `start` and wrapping modulo `c`, the
first bucket index satisfying `pred`, giving up after `fuel` steps. -/
def probeFind (pred : Nat → Bool) (c : Nat) : Nat → Nat → Option Nat
  | start, fuel + 1 =>
    if pred (start % c) then some (start % c) else probeFind pred c (start + 1) fuel
  | _, 0 => none

/-- Modelled from the spec: placing one key/value pair during
`ArchivedHashMap::serialize_from_iter` — deterministic bucket assignment by
the fixed hash function, linear probing to the first free bucket. -/
def insertPair {K V : Type} (hash : K → Nat) (sl : Slots K V) (k : K) (v : V) :
    Slots K V :=
  match probeFind (fun j => (List.getD sl j none).isNone) (List.length sl)
      (hash k) (List.length sl) with
  | some j => List.set sl j (some (k, v))
  | none => sl

/-- Modelled from the spec: `ArchivedHashMap::serialize_from_iter` — streams
the pairs into the bucket array sized by the fixed policy, deriving the
archived layout directly from the iterator without building a transient hash
table. -/
def serializeFromIter {K V : Type} (hash : K → Nat) (pairs : List (K × V)) :
    Slots K V :=
  pairs.foldl (fun sl p => insertPair hash sl p.1 p.2)
    (List.replicate (capacityFor pairs.length) none)

/-- Modelled from the spec: the probe loop of `ArchivedHashMap::get` — probes
the bucket array with the same linear sequence used at write time, compares
each found entry's key by value, and stops at the first exact match, at the
first empty bucket, or after `fuel` steps. -/
def lookupProbe {K V : Type} [DecidableEq K] (sl : Slots K V) (k : K) :
    Nat → Nat → Option V
  | start, fuel + 1 =>
    match List.getD sl (start % List.length sl) none with
    | none => none
    | some (k', v) => if k' = k then some v else lookupProbe sl k (start + 1) fuel
  | _, 0 => none

/-- Modelled from the spec: `ArchivedHashMap::get` — rehashes the query key
with the same fixed hash function and probes the archived bucket array. -/
def hmGet {K V : Type} [DecidableEq K] (hash : K → Nat) (sl : Slots K V) (k : K) :
    Option V :=
  if List.length sl = 0 then none else lookupProbe sl k (hash k) (List.length sl)

/-- Modelled from the spec: iteration over the archived map's entries in their
stored (bucket) order. -/
def hmEntries {K V : Type} (sl : Slots K V) : List (K × V) :=
  List.filterMap id sl

/-- Converts one archived entry to an owned pair: the key first, then the
value, failing at the first conversion failure. -/
def pairConv {K V K2 V2 : Type} (dk : K → Except SErr K2) (dv : V → Except SErr V2)
    (p : K × V) : Except SErr (K2 × V2) := do
  let k ← dk p.1
  let v ← dv p.2
  pure (k, v)

/-- `AsHashMap::deserialize_with`: iterates the archived entries in stored
order and collects the converted owned pairs, propagating the first
failure. -/
def hmDeserializeWith {K V K2 V2 : Type} (dk : K → Except SErr K2)
    (dv : V → Except SErr V2) (sl : Slots K V) : Except SErr (List (K2 × V2)) :=
  (hmEntries sl).mapM (pairConv dk dv)

/-- `HashMapResolver`: the position at which the bucket array was written,
captured by the first serialization pass. -/
structure HashMapResolver where
  pos : Nat
deriving DecidableEq

/-- `AsHashMap::serialize_with` with the sink threaded: builds the bucket
array by streaming the pairs (unique keys are the caller's unchecked
precondition), writes it to the sink, and returns the resolver capturing the
array's position. -/
def hashMapSerializeWith {K V : Type} (hash : K → Nat) (pairs : List (K × V))
    (s : Sink (Option (K × V))) : Sink (Option (K × V)) × Except SErr HashMapResolver :=
  match writeItems (serializeFromIter hash pairs) s with
  | (s', .ok _) => (s', .ok ⟨s.written.length⟩)
  | (s', .error e) => (s', .error e)

/-- Archived map record: the relative offset to the bucket array plus the
map's logical entry count. -/
structure AHashMapRec where
  off : Int
  count : Nat
deriving DecidableEq

/-- Modelled from the spec: `ArchivedHashMap::resolve_from_len` — writes the
final record referencing the bucket array by relative offset plus the given
entry count. -/
def resolveFromLen (n : Nat) (pos : Nat) (r : HashMapResolver) : AHashMapRec :=
  { off := (r.pos : Int) - (pos : Int), count := n }

/-- `AsHashMap::resolve_with`: resolves the record from the vector's length
(`field.len()`); the sink is threaded unchanged to express that resolving
performs no write besides the output record. -/
def hashMapResolveWith {K V : Type} (field : List (K × V)) (pos : Nat)
    (r : HashMapResolver) (s : Sink (Option (K × V))) :
    Sink (Option (K × V)) × AHashMapRec :=
  (s, resolveFromLen field.length pos r)


/-! ### Monad plumbing for `Except` -/

theorem bind_ok {ε α β : Type} (a : α) (g : α → Except ε β) :
    (Except.ok a >>= g) = g a := rfl

theorem bind_error {ε α β : Type} (e : ε) (g : α → Except ε β) :
    ((Except.error e : Except ε α) >>= g) = .error e := rfl

theorem pure_eq_ok {ε β : Type} (b : β) : (pure b : Except ε β) = .ok b := rfl

/-! ### Sink lemmas -/

theorem writeItem_ok {ι : Type} (it : ι) (s : Sink ι)
    (h : ∀ b, s.budget = some b → s.written.length < b) :
    writeItem it s = ({ s with written := s.written ++ [it] }, .ok ()) := by
  unfold writeItem
  cases hb : s.budget with
  | none => rfl
  | some b => simp [h b hb]

theorem writeItem_failure {ι : Type} (it : ι) (s : Sink ι) (b : Nat)
    (hb : s.budget = some b) (h : b ≤ s.written.length) :
    writeItem it s = (s, .error .sinkFailure) := by
  unfold writeItem
  rw [hb]
  simp [Nat.not_lt.mpr h]

theorem writeItems_cons_ok {ι : Type} {it : ι} {s s2 : Sink ι} {u : Unit}
    (rest : List ι) (h : writeItem it s = (s2, .ok u)) :
    writeItems (it :: rest) s = writeItems rest s2 := by
  rw [writeItems, h]

theorem writeItems_ok {ι : Type} :
    ∀ (items : List ι) (s : Sink ι),
      (∀ b, s.budget = some b → s.written.length + items.length ≤ b) →
      writeItems items s = ({ s with written := s.written ++ items }, .ok ()) := by
  intro items
  induction items with
  | nil => intro s _; simp [writeItems]
  | cons it rest ih =>
    intro s h
    have hlt : ∀ b, s.budget = some b → s.written.length < b := by
      intro b hb
      have := h b hb
      simp [List.length_cons] at this
      omega
    rw [writeItems_cons_ok rest (writeItem_ok it s hlt)]
    rw [ih { s with written := s.written ++ [it] } ?bound]
    · simp
    case bound =>
      intro b hb
      simp at hb
      have := h b hb
      simp [List.length_cons] at this ⊢
      omega

theorem writeItems_failure {ι : Type} :
    ∀ (items : List ι) (s : Sink ι) (b : Nat),
      s.budget = some b → b < s.written.length + items.length → items ≠ [] →
      writeItems items s =
        ({ s with written := s.written ++ items.take (b - s.written.length) },
          .error .sinkFailure) := by
  intro items
  induction items with
  | nil => intro s b _ _ hne; exact absurd rfl hne
  | cons it rest ih =>
    intro s b hb hlt _
    by_cases hfull : b ≤ s.written.length
    · rw [writeItems, writeItem_failure it s b hb hfull]
      have h0 : b - s.written.length = 0 := by omega
      simp [h0]
    · have hlt2 : s.written.length < b := by omega
      rw [writeItems_cons_ok rest (writeItem_ok it s
        (by intro b' hb'; rw [hb] at hb'; injection hb' with hbb; omega))]
      simp [List.length_cons] at hlt
      have hrest : rest ≠ [] := by
        intro hcon
        subst hcon
        simp at hlt
        omega
      rw [ih { s with written := s.written ++ [it] } b (by simpa using hb)
        (by simp [List.length_cons]; omega) hrest]
      have htake : (it :: rest).take (b - s.written.length) =
          it :: rest.take (b - (s.written.length + 1)) := by
        have hsplit : b - s.written.length = (b - (s.written.length + 1)) + 1 := by omega
        rw [hsplit]
        rfl
      simp [htake]

theorem writeItems_error {ι : Type} {items : List ι} {s s' : Sink ι} {e : SErr}
    (h : writeItems items s = (s', .error e)) :
    e = .sinkFailure ∧ ∃ b, s.budget = some b ∧ b < s.written.length + items.length ∧
      s'.written = s.written ++ items.take (b - s.written.length) ∧
      s'.budget = s.budget := by
  cases items with
  | nil => simp [writeItems] at h
  | cons it rest =>
    cases hb : s.budget with
    | none =>
      rw [writeItems_ok (it :: rest) s (by intro b hb'; rw [hb] at hb'; cases hb')] at h
      simp at h
    | some b =>
      by_cases hle : s.written.length + (it :: rest).length ≤ b
      · rw [writeItems_ok (it :: rest) s
          (by intro b' hb'; rw [hb] at hb'; injection hb' with hbb; omega)] at h
        simp at h
      · rw [writeItems_failure (it :: rest) s b hb (by omega) (by simp)] at h
        rw [Prod.mk.injEq] at h
        obtain ⟨h1, h2⟩ := h
        injection h2 with h2
        subst h1
        exact ⟨h2.symm, b, rfl, by omega, rfl, hb⟩

/-! ### `mapM` over `Except` -/

theorem mapM_ok_id {α : Type} :
    ∀ (l : List α), l.mapM (fun a => (Except.ok a : Except SErr α)) = .ok l := by
  intro l
  induction l with
  | nil => rw [List.mapM_nil]; rfl
  | cons x rest ih =>
    rw [List.mapM_cons, bind_ok, ih, bind_ok, pure_eq_ok]

theorem mapM_isErr_iff {ε α β : Type} (f : α → Except ε β) :
    ∀ (l : List α), isErrE (l.mapM f) = true ↔ ∃ x ∈ l, isErrE (f x) = true := by
  intro l
  induction l with
  | nil => rw [List.mapM_nil, pure_eq_ok]; simp [isErrE]
  | cons x rest ih =>
    rw [List.mapM_cons]
    cases hx : f x with
    | error e =>
      simp only [bind_error]
      constructor
      · intro _
        exact ⟨x, by simp, by rw [hx]; rfl⟩
      · intro _
        rfl
    | ok b =>
      cases hr : rest.mapM f with
      | error e2 =>
        simp only [bind_ok, hr, bind_error]
        constructor
        · intro _
          rcases ih.mp (by rw [hr]; rfl) with ⟨y, hy, hfy⟩
          exact ⟨y, by simp [hy], hfy⟩
        · intro _
          rfl
      | ok bs =>
        simp only [bind_ok, hr, pure_eq_ok]
        constructor
        · intro hcon
          cases hcon
        · rintro ⟨y, hy, hfy⟩
          rcases List.mem_cons.mp hy with rfl | hmem
          · rw [hx] at hfy; cases hfy
          · have herr : isErrE (rest.mapM f) = true := ih.mpr ⟨y, hmem, hfy⟩
            rw [hr] at herr
            cases herr

theorem mapM_append_error {ε α β : Type} (f : α → Except ε β) (e : ε) :
    ∀ (pre : List α) (x : α) (post : List α),
      (∀ y ∈ pre, ∃ z, f y = .ok z) → f x = .error e →
      (pre ++ x :: post).mapM f = .error e := by
  intro pre
  induction pre with
  | nil =>
    intro x post _ hx
    rw [List.nil_append, List.mapM_cons, hx, bind_error]
  | cons y pre' ih =>
    intro x post hpre hx
    rcases hpre y (by simp) with ⟨z, hz⟩
    rw [List.cons_append, List.mapM_cons, hz, bind_ok,
      ih x post (fun y' hy' => hpre y' (by simp [hy'])) hx, bind_error]

theorem mapM_error_first {ε α β : Type} (f : α → Except ε β) :
    ∀ (l : List α) (e : ε), l.mapM f = .error e →
      ∃ pre x post, l = pre ++ x :: post ∧ (∀ y ∈ pre, ∃ z, f y = .ok z) ∧
        f x = .error e := by
  intro l
  induction l with
  | nil => intro e h; rw [List.mapM_nil] at h; cases h
  | cons x rest ih =>
    intro e h
    rw [List.mapM_cons] at h
    cases hx : f x with
    | error e' =>
      rw [hx, bind_error] at h
      injection h with he
      subst he
      exact ⟨[], x, rest, by simp, by simp, hx⟩
    | ok b =>
      rw [hx, bind_ok] at h
      cases hr : rest.mapM f with
      | error e2 =>
        rw [hr, bind_error] at h
        injection h with he
        subst he
        rcases ih e2 hr with ⟨pre, x', post, hsplit, hpre, hx'⟩
        refine ⟨x :: pre, x', post, by simp [hsplit], ?pres, hx'⟩
        case pres =>
          intro y hy
          rcases List.mem_cons.mp hy with rfl | hmem
          · exact ⟨b, hx⟩
          · exact hpre y hmem
      | ok bs =>
        rw [hr, bind_ok, pure_eq_ok] at h
        cases h

/-! ### `getD`/`set` helpers -/

theorem getD_set_self {α : Type} :
    ∀ (l : List α) (j : Nat) (x d : α), j < l.length → (l.set j x).getD j d = x := by
  intro l
  induction l with
  | nil => intro j x d h; cases h
  | cons a rest ih =>
    intro j x d h
    cases j with
    | zero => rfl
    | succ j2 => exact ih j2 x d (by simpa using h)

theorem getD_set_ne {α : Type} :
    ∀ (l : List α) (i j : Nat) (x d : α), i ≠ j → (l.set j x).getD i d = l.getD i d := by
  intro l
  induction l with
  | nil => intro i j x d _; rfl
  | cons a rest ih =>
    intro i j x d hne
    cases j with
    | zero =>
      cases i with
      | zero => exact absurd rfl hne
      | succ i2 => rfl
    | succ j2 =>
      cases i with
      | zero => rfl
      | succ i2 => exact ih i2 j2 x d (by omega)

/-! ### Probe-scan lemmas -/

theorem probeFind_spec (pred : Nat → Bool) (c : Nat) :
    ∀ (fuel start j : Nat), probeFind pred c start fuel = some j →
      pred j = true ∧ ∃ i, i < fuel ∧ (start + i) % c = j ∧
        ∀ i2, i2 < i → pred ((start + i2) % c) = false := by
  intro fuel
  induction fuel with
  | zero => intro start j h; cases h
  | succ fuel ih =>
    intro start j h
    rw [probeFind] at h
    split at h
    next hp =>
      injection h with hj
      subst hj
      exact ⟨hp, 0, Nat.succ_pos _, by simp, by intro i2 h2; cases h2⟩
    next hp =>
      rcases ih (start + 1) j h with ⟨hpj, i, hi, hij, hbefore⟩
      refine ⟨hpj, i + 1, by omega, ?eqn, ?bef⟩
      case eqn =>
        rw [show start + (i + 1) = start + 1 + i by omega]
        exact hij
      case bef =>
        intro i2 h2
        cases i2 with
        | zero =>
          simp only [Nat.add_zero]
          exact Bool.not_eq_true _ ▸ by simpa using hp
        | succ i3 =>
          rw [show start + (i3 + 1) = start + 1 + i3 by omega]
          exact hbefore i3 (by omega)

theorem probeFind_isSome_of_exists (pred : Nat → Bool) (c : Nat) :
    ∀ (fuel start : Nat), (∃ i, i < fuel ∧ pred ((start + i) % c) = true) →
      ∃ j, probeFind pred c start fuel = some j := by
  intro fuel
  induction fuel with
  | zero => rintro start ⟨i, hi, _⟩; exact absurd hi (Nat.not_lt_zero i)
  | succ fuel ih =>
    rintro start ⟨i, hi, hp⟩
    rw [probeFind]
    split
    next => exact ⟨_, rfl⟩
    next hfalse =>
      apply ih (start + 1)
      cases i with
      | zero =>
        simp only [Nat.add_zero] at hp
        exact absurd hp hfalse
      | succ i2 =>
        refine ⟨i2, by omega, ?hp2⟩
        case hp2 =>
          rw [show start + 1 + i2 = start + (i2 + 1) by omega]
          exact hp

theorem exists_probe_index (c start j : Nat) (hc : 0 < c) (hj : j < c) :
    ∃ i, i < c ∧ (start + i) % c = j := by
  have ha : start % c < c := Nat.mod_lt start hc
  refine ⟨(j + (c - start % c)) % c, Nat.mod_lt _ hc, ?eqn⟩
  case eqn =>
    have hX : start + (j + (c - start % c)) = j + (c * (start / c) + c) := by
      have h2 : c * (start / c) + start % c = start := Nat.div_add_mod start c
      omega
    calc (start + (j + (c - start % c)) % c) % c
        = (start + (j + (c - start % c))) % c := Nat.add_mod_mod _ _ _
      _ = (j + (c * (start / c) + c)) % c := by rw [hX]
      _ = (j + c * (start / c + 1)) % c := by rw [Nat.mul_succ]
      _ = j % c := Nat.add_mul_mod_self_left j c (start / c + 1)
      _ = j := Nat.mod_eq_of_lt hj

theorem add_mod_inj {c a i s : Nat} (hi : i < c) (hs : s < c)
    (h : (a + i) % c = (a + s) % c) : i = s := by
  have h1 : Nat.ModEq c i s := Nat.ModEq.add_left_cancel (Nat.ModEq.refl a) h
  have h2 : i % c = s % c := h1
  rw [Nat.mod_eq_of_lt hi, Nat.mod_eq_of_lt hs] at h2
  exact h2

/-! ### Bucket-array lemmas -/

theorem getD_some_lt {K V : Type} {sl : Slots K V} {j : Nat} {p : K × V}
    (h : List.getD sl j none = some p) : j < sl.length := by
  by_contra hcon
  push_neg at hcon
  rw [List.getD_eq_default sl none hcon] at h
  cases h

theorem mem_entries_of_getD {K V : Type} {sl : Slots K V} {j : Nat} {p : K × V}
    (h : List.getD sl j none = some p) : p ∈ hmEntries sl := by
  have hj : j < sl.length := getD_some_lt h
  rw [List.getD_eq_getElem sl none hj] at h
  exact List.mem_filterMap.mpr ⟨some p, h ▸ List.getElem_mem hj, rfl⟩

theorem exists_getD_of_mem_entries {K V : Type} {sl : Slots K V} {p : K × V}
    (h : p ∈ hmEntries sl) : ∃ j, j < sl.length ∧ List.getD sl j none = some p := by
  rcases List.mem_filterMap.mp h with ⟨o, ho, hid⟩
  have ho2 : o = some p := hid
  subst ho2
  rcases List.mem_iff_get.mp ho with ⟨⟨j, hj⟩, hget⟩
  refine ⟨j, hj, ?eqn⟩
  case eqn =>
    rw [List.getD_eq_getElem sl none hj, ← hget]
    rfl

theorem exists_empty_slot {K V : Type} :
    ∀ (sl : Slots K V), (hmEntries sl).length < sl.length →
      ∃ j, j < sl.length ∧ List.getD sl j none = none := by
  intro sl
  induction sl with
  | nil => intro h; simp [hmEntries] at h
  | cons o rest ih =>
    intro h
    cases o with
    | none => exact ⟨0, by simp, rfl⟩
    | some p =>
      have hr : (hmEntries rest).length < rest.length := by
        simp only [hmEntries, List.filterMap_cons, id, List.length_cons] at h ⊢
        simpa using h
      rcases ih hr with ⟨j, hj, hempty⟩
      exact ⟨j + 1, by simpa using Nat.succ_lt_succ hj, hempty⟩

theorem entries_set_perm {K V : Type} :
    ∀ (sl : Slots K V) (j : Nat) (p : K × V), j < sl.length →
      List.getD sl j none = none →
      (hmEntries (sl.set j (some p))).Perm (p :: hmEntries sl) := by
  intro sl
  induction sl with
  | nil => intro j p h _; cases h
  | cons o rest ih =>
    intro j p hj hempty
    cases j with
    | zero =>
      have ho : o = none := hempty
      subst ho
      simp [hmEntries, List.filterMap_cons]
    | succ j2 =>
      have hj2 : j2 < rest.length := by simpa using hj
      have hperm := ih j2 p hj2 hempty
      cases o with
      | none =>
        simpa [hmEntries, List.filterMap_cons] using hperm
      | some q =>
        simp only [hmEntries, List.filterMap_cons, id, List.set_cons_succ] at hperm ⊢
        exact (hperm.cons q).trans (List.Perm.swap p q _)

theorem isSome_getD_set {K V : Type} {sl : Slots K V} {j i : Nat} {p : K × V}
    (h : (List.getD sl i none).isSome = true) :
    (List.getD (sl.set j (some p)) i none).isSome = true := by
  have hi : i < sl.length := by
    by_contra hcon
    push_neg at hcon
    rw [List.getD_eq_default sl none hcon] at h
    cases h
  by_cases hij : i = j
  · subst hij
    rw [getD_set_self sl i (some p) none hi]
    rfl
  · rw [getD_set_ne sl i j (some p) none hij]
    exact h

theorem getD_replicate_none {K V : Type} :
    ∀ (c j : Nat), List.getD (List.replicate c (none : Option (K × V))) j none = none := by
  intro c
  induction c with
  | zero => intro j; rfl
  | succ c ih =>
    intro j
    cases j with
    | zero => rfl
    | succ j2 => exact ih j2

theorem entries_replicate {K V : Type} :
    ∀ (c : Nat), hmEntries (List.replicate c (none : Option (K × V))) = [] := by
  intro c
  induction c with
  | zero => rfl
  | succ c ih =>
    rw [List.replicate_succ]
    show List.filterMap id (none :: List.replicate c none) = []
    rw [List.filterMap_cons]
    exact ih

/-! ### The archived-map building invariant -/

theorem isSome_of_isNone_false {α : Type} {o : Option α} (h : o.isNone = false) :
    o.isSome = true := by
  cases o with
  | none => cases h
  | some a => rfl

/-- There is a probe path of fewer than `sl.length` steps from key `k`'s home
bucket to bucket `j`, with every bucket strictly before `j` on the path
occupied. -/
def ProbePath {K V : Type} (hash : K → Nat) (sl : Slots K V) (k : K) (j : Nat) : Prop :=
  ∃ steps, steps < sl.length ∧ (hash k + steps) % sl.length = j ∧
    ∀ i, i < steps → (List.getD sl ((hash k + i) % sl.length) none).isSome = true

/-- Invariant of the bucket array after streaming `processed` pairs: the
stored entries are a permutation of the processed pairs, every key occupies at
most one bucket, and every stored entry is reachable from its key's home
bucket along a fully occupied probe path (so write-time and read-time probing
agree). -/
structure TableInv {K V : Type} (hash : K → Nat) (processed : List (K × V))
    (sl : Slots K V) : Prop where
  perm : (hmEntries sl).Perm processed
  uniq : ∀ j1 j2 k v1 v2, List.getD sl j1 none = some (k, v1) →
    List.getD sl j2 none = some (k, v2) → j1 = j2
  path : ∀ j k v, List.getD sl j none = some (k, v) → ProbePath hash sl k j

theorem tableInv_empty {K V : Type} (hash : K → Nat) (c : Nat) :
    TableInv hash [] (List.replicate c (none : Option (K × V))) := by
  refine ⟨?perm, ?uniq, ?path⟩
  case perm => rw [entries_replicate]
  case uniq =>
    intro j1 j2 k v1 v2 h1 _
    rw [getD_replicate_none] at h1
    cases h1
  case path =>
    intro j k v h
    rw [getD_replicate_none] at h
    cases h

theorem insertPair_length {K V : Type} (hash : K → Nat) (sl : Slots K V) (k : K) (v : V) :
    (insertPair hash sl k v).length = sl.length := by
  unfold insertPair
  split
  · exact List.length_set sl _ _
  · rfl

theorem insertPair_inv {K V : Type} (hash : K → Nat) {processed : List (K × V)}
    {sl : Slots K V} (inv : TableInv hash processed sl) (k : K) (v : V)
    (hnew : k ∉ processed.map Prod.fst) (hroom : processed.length < sl.length) :
    TableInv hash (processed ++ [(k, v)]) (insertPair hash sl k v) := by
  have hc : 0 < sl.length := Nat.lt_of_le_of_lt (Nat.zero_le _) hroom
  have hent : (hmEntries sl).length = processed.length := inv.perm.length_eq
  obtain ⟨j0, hj0, hj0e⟩ := exists_empty_slot sl (by omega)
  have hex : ∃ i, i < sl.length ∧
      (fun j => (List.getD sl j none).isNone) ((hash k + i) % sl.length) = true := by
    obtain ⟨i, hi, hieq⟩ := exists_probe_index sl.length (hash k) j0 hc hj0
    refine ⟨i, hi, ?pr⟩
    case pr =>
      show (List.getD sl ((hash k + i) % sl.length) none).isNone = true
      rw [hieq, hj0e]
      rfl
  obtain ⟨j, hfind⟩ :=
    probeFind_isSome_of_exists (fun j => (List.getD sl j none).isNone) sl.length
      sl.length (hash k) hex
  obtain ⟨hpredj, i, hi, hij, hbef⟩ :=
    probeFind_spec (fun j => (List.getD sl j none).isNone) sl.length
      sl.length (hash k) j hfind
  have hjlt : j < sl.length := hij ▸ Nat.mod_lt _ hc
  have hjempty : List.getD sl j none = none := by
    simpa using hpredj
  have hins : insertPair hash sl k v = sl.set j (some (k, v)) := by
    unfold insertPair
    rw [hfind]
  rw [hins]
  refine ⟨?perm, ?uniq, ?path⟩
  case perm =>
    exact (entries_set_perm sl j (k, v) hjlt hjempty).trans
      ((inv.perm.cons (k, v)).trans (List.perm_append_singleton (k, v) processed).symm)
  case uniq =>
    intro j1 j2 k0 v1 v2 h1 h2
    by_cases e1 : j1 = j
    · by_cases e2 : j2 = j
      · rw [e1, e2]
      · exfalso
        rw [e1] at h1
        rw [getD_set_self sl j (some (k, v)) none hjlt] at h1
        injection h1 with hp
        injection hp with hk hv
        subst hk
        rw [getD_set_ne sl j2 j (some (k, v)) none e2] at h2
        exact hnew (List.mem_map.mpr ⟨(k, v2),
          inv.perm.mem_iff.mp (mem_entries_of_getD h2), rfl⟩)
    · by_cases e2 : j2 = j
      · exfalso
        rw [e2] at h2
        rw [getD_set_self sl j (some (k, v)) none hjlt] at h2
        injection h2 with hp
        injection hp with hk hv
        subst hk
        rw [getD_set_ne sl j1 j (some (k, v)) none e1] at h1
        exact hnew (List.mem_map.mpr ⟨(k, v1),
          inv.perm.mem_iff.mp (mem_entries_of_getD h1), rfl⟩)
      · rw [getD_set_ne sl j1 j (some (k, v)) none e1] at h1
        rw [getD_set_ne sl j2 j (some (k, v)) none e2] at h2
        exact inv.uniq j1 j2 k0 v1 v2 h1 h2
  case path =>
    intro j3 k0 v0 h3
    by_cases e3 : j3 = j
    · rw [e3] at h3 ⊢
      rw [getD_set_self sl j (some (k, v)) none hjlt] at h3
      injection h3 with hp
      injection hp with hk hv
      subst hk
      refine ⟨i, ?lt, ?eqn, ?occ⟩
      case lt => simpa only [List.length_set] using hi
      case eqn => simpa only [List.length_set] using hij
      case occ =>
        intro i2 h2
        simp only [List.length_set]
        have hfalse := hbef i2 h2
        exact isSome_getD_set (isSome_of_isNone_false hfalse)
    · rw [getD_set_ne sl j3 j (some (k, v)) none e3] at h3
      obtain ⟨steps, hst, heq, hocc⟩ := inv.path j3 k0 v0 h3
      refine ⟨steps, ?lt, ?eqn, ?occ⟩
      case lt => simpa only [List.length_set] using hst
      case eqn => simpa only [List.length_set] using heq
      case occ =>
        intro i2 h2
        simp only [List.length_set]
        exact isSome_getD_set (hocc i2 h2)

theorem foldl_insert_inv {K V : Type} (hash : K → Nat) :
    ∀ (rest processed : List (K × V)) (sl : Slots K V),
      TableInv hash processed sl →
      ((processed ++ rest).map Prod.fst).Nodup →
      processed.length + rest.length < sl.length →
      TableInv hash (processed ++ rest)
        (rest.foldl (fun sl2 p => insertPair hash sl2 p.1 p.2) sl) ∧
      (rest.foldl (fun sl2 p => insertPair hash sl2 p.1 p.2) sl).length = sl.length := by
  intro rest
  induction rest with
  | nil =>
    intro processed sl inv _ _
    constructor
    · simpa using inv
    · rfl
  | cons p rest ih =>
    intro processed sl inv hnd hroom
    obtain ⟨k, v⟩ := p
    have hknew : k ∉ processed.map Prod.fst := by
      intro hkmem
      rw [List.map_append] at hnd
      exact List.disjoint_of_nodup_append hnd hkmem (by simp)
    have hroom1 : processed.length < sl.length := by
      simp only [List.length_cons] at hroom
      omega
    have inv2 := insertPair_inv hash inv k v hknew hroom1
    have hlen2 := insertPair_length hash sl k v
    have happ : (processed ++ [(k, v)]) ++ rest = processed ++ (k, v) :: rest := by simp
    obtain ⟨inv3, hlen3⟩ := ih (processed ++ [(k, v)]) (insertPair hash sl k v) inv2
      (by rw [happ]; exact hnd)
      (by rw [hlen2]; simp only [List.length_append, List.length_cons,
        List.length_nil] at hroom ⊢; omega)
    rw [happ] at inv3
    constructor
    · simpa only [List.foldl_cons] using inv3
    · rw [List.foldl_cons, hlen3, hlen2]

theorem serializeFromIter_inv {K V : Type} (hash : K → Nat) (pairs : List (K × V))
    (hnd : (pairs.map Prod.fst).Nodup) :
    TableInv hash pairs (serializeFromIter hash pairs) ∧
    (serializeFromIter hash pairs).length = capacityFor pairs.length := by
  unfold serializeFromIter
  have h := foldl_insert_inv hash pairs [] (List.replicate (capacityFor pairs.length) none)
    (tableInv_empty hash _) (by simpa using hnd)
    (by simp only [List.length_nil, List.length_replicate, capacityFor]; omega)
  simpa using h

/-! ### Lookup correctness -/

theorem lookupProbe_reaches {K V : Type} [DecidableEq K] (sl : Slots K V) (k : K) (v : V) :
    ∀ (steps fuel start : Nat), steps < fuel →
      (∀ i, i < steps → ∃ k2 v2,
        List.getD sl ((start + i) % sl.length) none = some (k2, v2) ∧ k2 ≠ k) →
      List.getD sl ((start + steps) % sl.length) none = some (k, v) →
      lookupProbe sl k start fuel = some v := by
  intro steps
  induction steps with
  | zero =>
    intro fuel start hf _ hget
    cases fuel with
    | zero => omega
    | succ f =>
      rw [lookupProbe]
      simp only [Nat.add_zero] at hget
      rw [hget]
      simp
  | succ steps ih =>
    intro fuel start hf hocc hget
    cases fuel with
    | zero => omega
    | succ f =>
      rw [lookupProbe]
      obtain ⟨k2, v2, hg0, hne⟩ := hocc 0 (Nat.succ_pos _)
      simp only [Nat.add_zero] at hg0
      rw [hg0]
      show (if k2 = k then some v2 else lookupProbe sl k (start + 1) f) = some v
      rw [if_neg hne]
      refine ih f (start + 1) (by omega) ?occ ?last
      case occ =>
        intro i hi
        have h := hocc (i + 1) (by omega)
        rwa [show start + (i + 1) = start + 1 + i by omega] at h
      case last =>
        rwa [show start + (steps + 1) = start + 1 + steps by omega] at hget

theorem lookupProbe_mem {K V : Type} [DecidableEq K] (sl : Slots K V) (k : K) :
    ∀ (fuel start : Nat) (v : V), lookupProbe sl k start fuel = some v →
      ∃ j, List.getD sl j none = some (k, v) := by
  intro fuel
  induction fuel with
  | zero => intro start v h; cases h
  | succ f ih =>
    intro start v h
    rw [lookupProbe] at h
    split at h
    next => cases h
    next k2 v2 hg =>
      split at h
      next hk =>
        injection h with hv
        exact ⟨start % sl.length, by rw [hg, hk, hv]⟩
      next hk =>
        exact ih (start + 1) v h

theorem hmGet_found {K V : Type} [DecidableEq K] (hash : K → Nat)
    {pairs : List (K × V)} {sl : Slots K V} (inv : TableInv hash pairs sl)
    {k : K} {v : V} (hmem : (k, v) ∈ pairs) : hmGet hash sl k = some v := by
  have hin : (k, v) ∈ hmEntries sl := inv.perm.mem_iff.mpr hmem
  obtain ⟨j, hj, hget⟩ := exists_getD_of_mem_entries hin
  have hc : 0 < sl.length := Nat.lt_of_le_of_lt (Nat.zero_le j) hj
  obtain ⟨steps, hst, heq, hocc⟩ := inv.path j k v hget
  unfold hmGet
  rw [if_neg (by omega)]
  refine lookupProbe_reaches sl k v steps sl.length (hash k) hst ?occ ?last
  case last => rw [heq]; exact hget
  case occ =>
    intro i hi
    have hsome := hocc i hi
    rcases Option.isSome_iff_exists.mp hsome with ⟨p, hp⟩
    obtain ⟨k2, v2⟩ := p
    refine ⟨k2, v2, hp, ?ne⟩
    case ne =>
      intro hkk
      subst hkk
      have hij := inv.uniq ((hash k2 + i) % sl.length) j k2 v2 v hp hget
      rw [← heq] at hij
      have heqi := add_mod_inj (Nat.lt_trans hi hst) hst hij
      omega

theorem hmGet_absent {K V : Type} [DecidableEq K] (hash : K → Nat)
    {pairs : List (K × V)} {sl : Slots K V} (inv : TableInv hash pairs sl)
    {k : K} (habs : k ∉ pairs.map Prod.fst) : hmGet hash sl k = none := by
  cases hv : hmGet hash sl k with
  | none => rfl
  | some v =>
    exfalso
    unfold hmGet at hv
    split at hv
    next => cases hv
    next =>
      obtain ⟨j, hget⟩ := lookupProbe_mem sl k sl.length (hash k) v hv
      exact habs (List.mem_map.mpr ⟨(k, v),
        inv.perm.mem_iff.mp (mem_entries_of_getD hget), rfl⟩)

/-! ### Deserialization with identity conversions -/

theorem mapM_ok_of_eq_ok {ε α : Type} (f : α → Except ε α) :
    ∀ l : List α, (∀ x ∈ l, f x = .ok x) → l.mapM f = .ok l := by
  intro l
  induction l with
  | nil => intro _; rw [List.mapM_nil]; rfl
  | cons x rest ih =>
    intro h
    rw [List.mapM_cons, h x (by simp), bind_ok, ih (fun y hy => h y (by simp [hy])),
      bind_ok, pure_eq_ok]

theorem pairConv_ok {K V : Type} (p : K × V) :
    pairConv (fun a => (.ok a : Except SErr K)) (fun b => (.ok b : Except SErr V)) p =
      .ok p := by
  obtain ⟨a, b⟩ := p
  rfl

theorem hmDeserialize_ok {K V : Type} (sl : Slots K V) :
    hmDeserializeWith (fun a => .ok a) (fun b => .ok b) sl = .ok (hmEntries sl) := by
  unfold hmDeserializeWith
  exact mapM_ok_of_eq_ok _ (hmEntries sl) (fun p _ => pairConv_ok p)

/-! ### Entry counting (no uniqueness assumption) -/

theorem insertPair_entries_succ {K V : Type} (hash : K → Nat) (sl : Slots K V)
    (k : K) (v : V) (hroom : (hmEntries sl).length < sl.length) :
    (hmEntries (insertPair hash sl k v)).length = (hmEntries sl).length + 1 := by
  have hc : 0 < sl.length := Nat.lt_of_le_of_lt (Nat.zero_le _) hroom
  obtain ⟨j0, hj0, hj0e⟩ := exists_empty_slot sl hroom
  have hex : ∃ i, i < sl.length ∧
      (fun j => (List.getD sl j none).isNone) ((hash k + i) % sl.length) = true := by
    obtain ⟨i, hi, hieq⟩ := exists_probe_index sl.length (hash k) j0 hc hj0
    refine ⟨i, hi, ?pr⟩
    case pr =>
      show (List.getD sl ((hash k + i) % sl.length) none).isNone = true
      rw [hieq, hj0e]
      rfl
  obtain ⟨j, hfind⟩ :=
    probeFind_isSome_of_exists (fun j => (List.getD sl j none).isNone) sl.length
      sl.length (hash k) hex
  obtain ⟨hpredj, i, hi, hij, _⟩ :=
    probeFind_spec (fun j => (List.getD sl j none).isNone) sl.length
      sl.length (hash k) j hfind
  have hjlt : j < sl.length := hij ▸ Nat.mod_lt _ hc
  have hjempty : List.getD sl j none = none := by simpa using hpredj
  have hins : insertPair hash sl k v = sl.set j (some (k, v)) := by
    unfold insertPair
    rw [hfind]
  rw [hins, (entries_set_perm sl j (k, v) hjlt hjempty).length_eq, List.length_cons]

theorem foldl_insert_entries {K V : Type} (hash : K → Nat) :
    ∀ (rest : List (K × V)) (sl : Slots K V),
      (hmEntries sl).length + rest.length ≤ sl.length →
      (hmEntries (rest.foldl (fun sl2 p => insertPair hash sl2 p.1 p.2) sl)).length =
        (hmEntries sl).length + rest.length := by
  intro rest
  induction rest with
  | nil => intro sl _; rfl
  | cons p rest ih =>
    intro sl hroom
    obtain ⟨k, v⟩ := p
    simp only [List.length_cons] at hroom
    have hroom1 : (hmEntries sl).length < sl.length := by omega
    have hsucc := insertPair_entries_succ hash sl k v hroom1
    have hlen := insertPair_length hash sl k v
    rw [List.foldl_cons, ih (insertPair hash sl k v) (by rw [hsucc, hlen]; omega),
      hsucc]
    simp only [List.length_cons]
    omega

theorem serializeFromIter_count {K V : Type} (hash : K → Nat) (pairs : List (K × V)) :
    (hmEntries (serializeFromIter hash pairs)).length = pairs.length := by
  unfold serializeFromIter
  rw [foldl_insert_entries hash pairs (List.replicate (capacityFor pairs.length) none)
    (by rw [entries_replicate, List.length_replicate]; simp [capacityFor]; omega),
    entries_replicate]
  simp

/-! ### Claim theorems -/

/-- C1: for every sequence of key/value pairs with unique keys, archiving with
the `AsHashMap` adapter and deserializing the archived map yields a list of
owned pairs that is a permutation of the input (multiset equality), looking up
any present key on the archived map returns its associated value, and looking
up any absent key returns `none`. -/
theorem C1_asHashMap_roundtrip {K V : Type} [DecidableEq K] (hash : K → Nat)
    (pairs : List (K × V)) (hnd : (pairs.map Prod.fst).Nodup) :
    (∃ l, hmDeserializeWith (fun a => .ok a) (fun b => .ok b)
        (serializeFromIter hash pairs) = .ok l ∧ l.Perm pairs) ∧
    (∀ k v, (k, v) ∈ pairs → hmGet hash (serializeFromIter hash pairs) k = some v) ∧
    (∀ k, k ∉ pairs.map Prod.fst → hmGet hash (serializeFromIter hash pairs) k = none) := by
  obtain ⟨inv, _⟩ := serializeFromIter_inv hash pairs hnd
  refine ⟨⟨hmEntries (serializeFromIter hash pairs), hmDeserialize_ok _, inv.perm⟩, ?f, ?a⟩
  case f => intro k v hmem; exact hmGet_found hash inv hmem
  case a => intro k habs; exact hmGet_absent hash inv habs

/-- C1 witness: the spec's example `[(1, a), (2, b)]` (values as naturals),
with the identity hash. -/
theorem C1_witness :
    (([(1, 10), (2, 20)] : List (Nat × Nat)).map Prod.fst).Nodup ∧
    hmGet (fun k => k) (serializeFromIter (fun k => k) [(1, 10), (2, 20)]) 1 = some 10 ∧
    hmGet (fun k => k) (serializeFromIter (fun k => k) [(1, 10), (2, 20)]) 2 = some 20 ∧
    hmGet (fun k => k) (serializeFromIter (fun k => k) [(1, 10), (2, 20)]) 3 = none :=
  ⟨by decide,
   (C1_asHashMap_roundtrip (fun k => k) [(1, 10), (2, 20)] (by decide)).2.1 1 10 (by decide),
   (C1_asHashMap_roundtrip (fun k => k) [(1, 10), (2, 20)] (by decide)).2.1 2 20 (by decide),
   (C1_asHashMap_roundtrip (fun k => k) [(1, 10), (2, 20)] (by decide)).2.2 3 (by decide)⟩

/-- C9: the archived map record reports an entry count equal to the input
vector's length for every input — `resolve_with` derives the count from
`field.len()` — and even with duplicate keys the bucket array stores exactly
one entry per input pair. -/
theorem C9_count_from_length {K V : Type} (hash : K → Nat) (pairs : List (K × V))
    (pos : Nat) (r : HashMapResolver) (s : Sink (Option (K × V))) :
    ((hashMapResolveWith pairs pos r s).2).count = pairs.length ∧
    (hmEntries (serializeFromIter hash pairs)).length = pairs.length :=
  ⟨rfl, serializeFromIter_count hash pairs⟩

/-! ### Serialize-pipeline inversion -/

theorem writeItem_ok_inv {ι : Type} {it : ι} {s s' : Sink ι} {u : Unit}
    (h : writeItem it s = (s', .ok u)) :
    s'.written = s.written ++ [it] ∧ s'.budget = s.budget := by
  obtain ⟨w0, bud⟩ := s
  cases bud with
  | none =>
    rw [writeItem_ok it ⟨w0, none⟩ (by intro b2 hb2; cases hb2)] at h
    injection h with h1 _
    subst h1
    exact ⟨rfl, rfl⟩
  | some b =>
    by_cases hlt : w0.length < b
    · rw [writeItem_ok it ⟨w0, some b⟩
        (by intro b2 hb2; injection hb2 with hbb; subst hbb; exact hlt)] at h
      injection h with h1 _
      subst h1
      exact ⟨rfl, rfl⟩
    · rw [writeItem_failure it ⟨w0, some b⟩ b rfl (by show b ≤ w0.length; omega)] at h
      injection h with _ h2
      cases h2

theorem writeItem_error_inv {ι : Type} {it : ι} {s s' : Sink ι} {e : SErr}
    (h : writeItem it s = (s', .error e)) :
    e = .sinkFailure ∧ s' = s ∧ ∃ b, s.budget = some b ∧ b ≤ s.written.length := by
  obtain ⟨w0, bud⟩ := s
  cases bud with
  | none =>
    rw [writeItem_ok it ⟨w0, none⟩ (by intro b2 hb2; cases hb2)] at h
    injection h with _ h2
    cases h2
  | some b =>
    by_cases hlt : w0.length < b
    · rw [writeItem_ok it ⟨w0, some b⟩
        (by intro b2 hb2; injection hb2 with hbb; subst hbb; exact hlt)] at h
      injection h with _ h2
      cases h2
    · rw [writeItem_failure it ⟨w0, some b⟩ b rfl (by show b ≤ w0.length; omega)] at h
      injection h with h1 h2
      injection h2 with h2
      exact ⟨h2.symm, h1.symm, b, rfl, by show b ≤ w0.length; omega⟩

theorem writeItems_ok_inv {ι : Type} {items : List ι} {s s' : Sink ι} {u : Unit}
    (h : writeItems items s = (s', .ok u)) :
    s'.written = s.written ++ items ∧ s'.budget = s.budget := by
  cases items with
  | nil =>
    rw [writeItems] at h
    injection h with h1 _
    subst h1
    exact ⟨by simp, rfl⟩
  | cons it rest =>
    cases hb : s.budget with
    | none =>
      rw [writeItems_ok (it :: rest) s (by intro b hb2; rw [hb] at hb2; cases hb2)] at h
      injection h with h1 _
      subst h1
      exact ⟨rfl, hb⟩
    | some b =>
      by_cases hle : s.written.length + (it :: rest).length ≤ b
      · rw [writeItems_ok (it :: rest) s
          (by intro b2 hb2; rw [hb] at hb2; injection hb2 with hbb; subst hbb; exact hle)] at h
        injection h with h1 _
        subst h1
        exact ⟨rfl, hb⟩
      · rw [writeItems_failure (it :: rest) s b hb (by omega) (by simp)] at h
        injection h with _ h2
        cases h2

theorem serializeFromSlice_ok_inv {words : List Nat} {s s' : Sink SinkItem}
    {r : VecResolver} (h : serializeFromSlice words s = (s', .ok r)) :
    s'.written = s.written ++ words.map SinkItem.word ∧ s'.budget = s.budget ∧
      r.pos = s.written.length := by
  unfold serializeFromSlice at h
  rcases hw : writeItems (words.map SinkItem.word) s with ⟨s2, res⟩
  rw [hw] at h
  cases res with
  | ok u =>
    have h2 : (s2, Except.ok (VecResolver.mk s.written.length)) = (s', .ok r) := h
    injection h2 with h2a h2b
    injection h2b with h2b
    subst h2a h2b
    obtain ⟨hw1, hb1⟩ := writeItems_ok_inv hw
    exact ⟨hw1, hb1, rfl⟩
  | error e =>
    have h2 : (s2, (Except.error e : Except SErr VecResolver)) = (s', .ok r) := h
    injection h2 with _ h2b
    cases h2b

theorem serializeFromSlice_error_inv {words : List Nat} {s s' : Sink SinkItem}
    {e : SErr} (h : serializeFromSlice words s = (s', .error e)) :
    e = .sinkFailure ∧ ∃ b, s.budget = some b ∧
      b < s.written.length + words.length ∧
      s'.written = s.written ++ (words.map SinkItem.word).take (b - s.written.length) ∧
      s'.budget = s.budget := by
  unfold serializeFromSlice at h
  rcases hw : writeItems (words.map SinkItem.word) s with ⟨s2, res⟩
  rw [hw] at h
  cases res with
  | ok u =>
    have h2 : (s2, Except.ok (VecResolver.mk s.written.length)) =
        (s', (.error e : Except SErr VecResolver)) := h
    injection h2 with _ h2b
    cases h2b
  | error e2 =>
    have h2 : (s2, (Except.error e2 : Except SErr VecResolver)) = (s', .error e) := h
    injection h2 with h2a h2b
    injection h2b with h2b
    subst h2a h2b
    obtain ⟨he, b, hb, hlt, hwrit, hbud⟩ := writeItems_error hw
    exact ⟨he, b, hb, by simpa using hlt, hwrit, hbud⟩

theorem bitvecSerializeWith_ok_inv {bv : BitVecM} {s s' : Sink SinkItem}
    {r : VecResolver} (h : bitvecSerializeWith bv s = (s', .ok r)) :
    s'.written = s.written ++ bv.words.map SinkItem.word ++ [SinkItem.scalar bv.len] ∧
    s'.budget = s.budget ∧ r.pos = s.written.length := by
  unfold bitvecSerializeWith at h
  rcases hs : serializeFromSlice bv.words s with ⟨s2, res⟩
  rw [hs] at h
  cases res with
  | error e =>
    have h2 : (s2, (Except.error e : Except SErr VecResolver)) = (s', .ok r) := h
    injection h2 with _ h2b
    cases h2b
  | ok r2 =>
    have h3 : (match usizeSerialize bv.len s2 with
        | (s3, Except.ok _) => (s3, Except.ok r2)
        | (s3, Except.error e) => (s3, (Except.error e : Except SErr VecResolver))) =
        (s', .ok r) := h
    rcases hu : usizeSerialize bv.len s2 with ⟨s3, res2⟩
    rw [hu] at h3
    cases res2 with
    | error e =>
      have h4 : (s3, (Except.error e : Except SErr VecResolver)) = (s', .ok r) := h3
      injection h4 with _ h4b
      cases h4b
    | ok u =>
      have h4 : (s3, Except.ok r2) = (s', .ok r) := h3
      injection h4 with h4a h4b
      injection h4b with h4b
      subst h4a h4b
      obtain ⟨hw1, hb1, hp1⟩ := serializeFromSlice_ok_inv hs
      obtain ⟨hw2, hb2⟩ := writeItem_ok_inv hu
      refine ⟨?w, ?b, hp1⟩
      case w => rw [hw2, hw1]
      case b => rw [hb2, hb1]

theorem bitvecSerializeWith_error_inv {bv : BitVecM} {s s' : Sink SinkItem}
    {e : SErr} (h : bitvecSerializeWith bv s = (s', .error e)) :
    e = .sinkFailure ∧ ∃ b, s.budget = some b ∧
      b < s.written.length + (bv.words.length + 1) ∧ s'.budget = s.budget := by
  unfold bitvecSerializeWith at h
  rcases hs : serializeFromSlice bv.words s with ⟨s2, res⟩
  rw [hs] at h
  cases res with
  | error e2 =>
    have h2 : (s2, (Except.error e2 : Except SErr VecResolver)) = (s', .error e) := h
    injection h2 with h2a h2b
    injection h2b with h2b
    subst h2a h2b
    obtain ⟨he, b, hb, hlt, _, hbud⟩ := serializeFromSlice_error_inv hs
    exact ⟨he, b, hb, by omega, hbud⟩
  | ok r2 =>
    have h3 : (match usizeSerialize bv.len s2 with
        | (s3, Except.ok _) => (s3, Except.ok r2)
        | (s3, Except.error e) => (s3, (Except.error e : Except SErr VecResolver))) =
        (s', .error e) := h
    rcases hu : usizeSerialize bv.len s2 with ⟨s3, res2⟩
    rw [hu] at h3
    cases res2 with
    | ok u =>
      have h4 : (s3, Except.ok r2) = (s', (.error e : Except SErr VecResolver)) := h3
      injection h4 with _ h4b
      cases h4b
    | error e2 =>
      have h4 : (s3, (Except.error e2 : Except SErr VecResolver)) = (s', .error e) := h3
      injection h4 with h4a h4b
      injection h4b with h4b
      subst h4a h4b
      obtain ⟨he, hs3, b, hb, hle⟩ := writeItem_error_inv hu
      obtain ⟨hw1, hb1, _⟩ := serializeFromSlice_ok_inv hs
      subst hs3
      refine ⟨he, b, by rw [← hb1]; exact hb, ?lt, by rw [hb1]⟩
      case lt =>
        rw [hw1] at hle
        simp only [List.length_append, List.length_map] at hle
        omega

/-! ### Ceiling-division bound -/

theorem le_ceil_mul (w n : Nat) (hw : 0 < w) : n ≤ ((n + w - 1) / w) * w := by
  cases n with
  | zero => exact Nat.zero_le _
  | succ m =>
    have hdiv : (m + 1 + w - 1) / w = m / w + 1 := by
      rw [show m + 1 + w - 1 = m + w by omega]
      exact Nat.add_div_right m hw
    rw [hdiv]
    have h1 : w * (m / w) + m % w = m := Nat.div_add_mod m w
    have h2 : m % w < w := Nat.mod_lt m hw
    calc m + 1 = w * (m / w) + m % w + 1 := by rw [h1]
    _ ≤ w * (m / w) + w := by omega
    _ = (m / w) * w + w := by rw [Nat.mul_comm]
    _ = (m / w + 1) * w := by rw [Nat.succ_mul]

/-- C4: `serialize_with` first writes the raw backing words — padding bits in
the final word included — via the archived word-array primitive, and then
separately serializes the exact logical bit length as its own scalar field;
the returned resolver captures the position where the words start. -/
theorem C4_serialize_words_then_len (bv : BitVecM) (s s' : Sink SinkItem)
    (r : VecResolver) (h : bitvecSerializeWith bv s = (s', .ok r)) :
    s'.written = s.written ++ bv.words.map SinkItem.word ++ [SinkItem.scalar bv.len] ∧
    r.pos = s.written.length :=
  ⟨(bitvecSerializeWith_ok_inv h).1, (bitvecSerializeWith_ok_inv h).2.2⟩

/-- C4 witness: the spec's 5-bit example `[1,0,1,1,1]` in one 8-bit word
(word value 29). -/
theorem C4_witness :
    (⟨[SinkItem.word 29, SinkItem.scalar 5], none⟩ : Sink SinkItem).written =
      ([] : List SinkItem) ++ [29].map SinkItem.word ++ [SinkItem.scalar 5] ∧
    (⟨0⟩ : VecResolver).pos = ([] : List SinkItem).length :=
  C4_serialize_words_then_len ⟨[29], 5⟩ ⟨[], none⟩
    ⟨[SinkItem.word 29, SinkItem.scalar 5], none⟩ ⟨0⟩ (by rfl)

/-- C3: for resolvers produced by the matching serialize call, `resolve_with`
of both adapters cannot fail (it is a total function), leaves the sink
untouched, and its only output is the record written into the caller-provided
slot — a pure function of the field, the final position and the resolver. -/
theorem C3_resolve_infallible {K V : Type} :
    (∀ (bv : BitVecM) (pos : Nat) (r : VecResolver) (s0 s1 sb sb2 : Sink SinkItem),
      bitvecSerializeWith bv s0 = (s1, .ok r) →
      bitvecResolveWith bv pos r sb =
        (sb, { inner := { off := (r.pos : Int) - ((pos + fpInner : Nat) : Int),
                          len := bv.words.length },
               bit_len := bv.len }) ∧
      (bitvecResolveWith bv pos r sb).2 = (bitvecResolveWith bv pos r sb2).2) ∧
    (∀ (hash : K → Nat) (pairs : List (K × V)) (pos : Nat) (r : HashMapResolver)
        (s0 s1 sb sb2 : Sink (Option (K × V))),
      hashMapSerializeWith hash pairs s0 = (s1, .ok r) →
      hashMapResolveWith pairs pos r sb =
        (sb, { off := (r.pos : Int) - ((pos : Nat) : Int), count := pairs.length }) ∧
      (hashMapResolveWith pairs pos r sb).2 = (hashMapResolveWith pairs pos r sb2).2) :=
  ⟨fun _ _ _ _ _ _ _ _ => ⟨rfl, rfl⟩, fun _ _ _ _ _ _ _ _ _ => ⟨rfl, rfl⟩⟩

/-- C3 witness: both resolves evaluated at concrete serialized inputs. -/
theorem C3_witness :
    bitvecResolveWith ⟨[29], 5⟩ 7 ⟨0⟩ ⟨[], none⟩ =
      (⟨[], none⟩,
        { inner := { off := ((0 : Nat) : Int) - ((7 + fpInner : Nat) : Int), len := 1 },
          bit_len := 5 }) ∧
    hashMapResolveWith ([(1, 10)] : List (Nat × Nat)) 3 ⟨0⟩ ⟨[], none⟩ =
      (⟨[], none⟩, { off := ((0 : Nat) : Int) - ((3 : Nat) : Int), count := 1 }) :=
  ⟨((C3_resolve_infallible (K := Nat) (V := Nat)).1 ⟨[29], 5⟩ 7 ⟨0⟩ ⟨[], none⟩
      ⟨[SinkItem.word 29, SinkItem.scalar 5], none⟩ ⟨[], none⟩ ⟨[], none⟩ (by rfl)).1,
   ((C3_resolve_infallible (K := Nat) (V := Nat)).2 (fun k => k) [(1, 10)] 3 ⟨0⟩
      ⟨[], none⟩ ⟨[none, some (1, 10), none], none⟩ ⟨[], none⟩ ⟨[], none⟩ (by rfl)).1⟩

/-- C5: `deserialize_with` reconstructs the word array into an owned buffer,
builds the bit-vector from that full buffer (its length before truncation is
the buffer's whole bit capacity), and only then truncates to the stored bit
length — the result keeps every reconstructed word and its length is the
truncation of the stored bit length by the buffer capacity. -/
theorem C5_truncate_after_reconstruction (w : Nat) (dw du : Nat → Except SErr Nat)
    (buf : List SinkItem) (recPos : Nat) (a : ABitVecRec) (bv : BitVecM)
    (h : bitvecDeserializeWith w dw du buf recPos a = .ok bv) :
    ∃ vec bl, avecDeserialize dw buf (recPos + fpInner) a.inner = .ok vec ∧
      du a.bit_len = .ok bl ∧
      bv = bvTruncate (bvFromVec w vec) bl ∧
      (bvFromVec w vec).len = vec.length * w ∧
      bv.words = vec ∧ bv.len = min bl (vec.length * w) := by
  unfold bitvecDeserializeWith at h
  cases hv : avecDeserialize dw buf (recPos + fpInner) a.inner with
  | error e => rw [hv, bind_error] at h; cases h
  | ok vec =>
    rw [hv, bind_ok] at h
    cases hb : du a.bit_len with
    | error e => rw [hb, bind_error] at h; cases h
    | ok bl =>
      rw [hb, bind_ok, pure_eq_ok] at h
      injection h with hbv
      subst hbv
      exact ⟨vec, bl, rfl, rfl, rfl, rfl, rfl, rfl⟩

/-- C5 witness: deserializing the archive of the 5-bit example. -/
theorem C5_witness :
    ∃ vec bl,
      avecDeserialize (fun x => .ok x) [SinkItem.word 29, SinkItem.scalar 5]
        (0 + fpInner) ({ off := 0, len := 1 } : AVecRec) = .ok vec ∧
      (fun x => (.ok x : Except SErr Nat)) 5 = .ok bl ∧
      (⟨[29], 5⟩ : BitVecM) = bvTruncate (bvFromVec 8 vec) bl ∧
      (bvFromVec 8 vec).len = vec.length * 8 ∧
      (⟨[29], 5⟩ : BitVecM).words = vec ∧
      (⟨[29], 5⟩ : BitVecM).len = min bl (vec.length * 8) :=
  C5_truncate_after_reconstruction 8 (fun x => .ok x) (fun x => .ok x)
    [SinkItem.word 29, SinkItem.scalar 5] 0 ⟨⟨0, 1⟩, 5⟩ ⟨[29], 5⟩ (by rfl)

/-- C6: for archives produced by the wrapper from a well-formed bit-vector,
the stored bit length is at most the word count times the word width, and the
read view (`deref`/`as_slice`) never exposes a bit index at or beyond the
stored bit length. -/
theorem C6_bitlen_invariant (w : Nat) (ord : Nat → Nat) (bv : BitVecM) (pos : Nat)
    (r : VecResolver) (sb : Sink SinkItem) (hwf : BVWF w bv) :
    ((bitvecResolveWith bv pos r sb).2).bit_len ≤
      ((bitvecResolveWith bv pos r sb).2).inner.len * w ∧
    ∀ (buf : List SinkItem) (recPos : Nat),
      (abvDeref w ord buf recPos (bitvecResolveWith bv pos r sb).2).length ≤
        ((bitvecResolveWith bv pos r sb).2).bit_len := by
  obtain ⟨hw, hlen⟩ := hwf
  constructor
  · show bv.len ≤ bv.words.length * w
    rw [hlen]
    exact le_ceil_mul w bv.len hw
  · intro buf recPos
    show ((viewBits w ord _).take bv.len).length ≤ bv.len
    rw [List.length_take]
    exact min_le_left _ _

/-- C6 witness: the 5-bit example; 5 ≤ 1 word × 8 bits. -/
theorem C6_witness :
    BVWF 8 ⟨[29], 5⟩ ∧
    ((bitvecResolveWith ⟨[29], 5⟩ 0 ⟨0⟩ ⟨[], none⟩).2).bit_len ≤
      ((bitvecResolveWith ⟨[29], 5⟩ 0 ⟨0⟩ ⟨[], none⟩).2).inner.len * 8 :=
  ⟨by unfold BVWF; exact ⟨by decide, by decide⟩,
   (C6_bitlen_invariant 8 (fun i => i) ⟨[29], 5⟩ 0 ⟨0⟩ ⟨[], none⟩
     (by unfold BVWF; exact ⟨by decide, by decide⟩)).1⟩

/-! ### Reading the archived words back from the buffer -/

theorem avecDeref_of_serialized {bv : BitVecM} {s s' : Sink SinkItem}
    {r : VecResolver} (recPos : Nat)
    (h : bitvecSerializeWith bv s = (s', .ok r)) :
    avecDeref s'.written (recPos + fpInner)
      (resolveFromSlice bv.words (recPos + fpInner) r) = bv.words := by
  obtain ⟨hw, _, hpos⟩ := bitvecSerializeWith_ok_inv h
  unfold avecDeref resolveFromSlice
  have hidx : (((recPos + fpInner : Nat) : Int) +
      ((r.pos : Int) - ((recPos + fpInner : Nat) : Int))).toNat = r.pos := by
    have hsum : ((recPos + fpInner : Nat) : Int) +
        ((r.pos : Int) - ((recPos + fpInner : Nat) : Int)) = (r.pos : Int) := by ring
    rw [hsum, Int.toNat_natCast]
  show wordsAt s'.written _ bv.words.length = bv.words
  rw [hidx, hw, hpos]
  unfold wordsAt
  rw [List.append_assoc, List.drop_left]
  rw [show bv.words.length = (bv.words.map SinkItem.word).length from
    (List.length_map _ _).symm]
  rw [List.take_left, List.map_map]
  show List.map (fun n => n) bv.words = bv.words
  exact List.map_id' bv.words

theorem bitvec_deserialize_roundtrip (w : Nat) {bv : BitVecM} {s s' : Sink SinkItem}
    {r : VecResolver} (recPos : Nat) (hwf : BVWF w bv)
    (h : bitvecSerializeWith bv s = (s', .ok r)) :
    bitvecDeserializeWith w (fun x => .ok x) (fun x => .ok x) s'.written recPos
      ((bitvecResolveWith bv recPos r s').2) = .ok bv := by
  obtain ⟨hw, hlen⟩ := hwf
  unfold bitvecDeserializeWith
  have hderef : avecDeref s'.written (recPos + fpInner)
      ((bitvecResolveWith bv recPos r s').2).inner = bv.words :=
    avecDeref_of_serialized recPos h
  unfold avecDeserialize
  rw [hderef, mapM_ok_id bv.words, bind_ok, bind_ok, pure_eq_ok]
  congr 1
  unfold bvTruncate bvFromVec
  have hminle : bv.len ≤ bv.words.length * w := by
    rw [hlen]
    exact le_ceil_mul w bv.len hw
  show ({ words := bv.words, len := min bv.len (bv.words.length * w) } : BitVecM) = bv
  rw [Nat.min_eq_left hminle]

/-- C2: archiving a bit-vector whose length is not a multiple of the word
width and deserializing the archive yields exactly the original bit-vector
(padding bits of the last word discarded from the logical value), and the
archived read view has length equal to the stored bit length — not the
rounded-up capacity `word_count * w`, from which it provably differs. -/
theorem C2_bitvec_roundtrip_nonaligned (w : Nat) (ord : Nat → Nat) (bv : BitVecM)
    (s : Sink SinkItem) (recPos : Nat) (hwf : BVWF w bv) (hna : ¬ w ∣ bv.len)
    (hb : s.budget = none) :
    ∃ s' r, bitvecSerializeWith bv s = (s', .ok r) ∧
      bitvecDeserializeWith w (fun x => .ok x) (fun x => .ok x) s'.written recPos
        ((bitvecResolveWith bv recPos r s').2) = .ok bv ∧
      (abvDeref w ord s'.written recPos ((bitvecResolveWith bv recPos r s').2)).length =
        ((bitvecResolveWith bv recPos r s').2).bit_len ∧
      ((bitvecResolveWith bv recPos r s').2).bit_len = bv.len ∧
      ((bitvecResolveWith bv recPos r s').2).bit_len ≠
        ((bitvecResolveWith bv recPos r s').2).inner.len * w := by
  obtain ⟨hwpos, hlen⟩ := hwf
  -- the sink never fails, so serialization succeeds
  rcases hser : bitvecSerializeWith bv s with ⟨s', res⟩
  cases res with
  | error e =>
    obtain ⟨_, b, hbud, _, _⟩ := bitvecSerializeWith_error_inv hser
    rw [hb] at hbud
    cases hbud
  | ok r =>
    refine ⟨s', r, rfl, bitvec_deserialize_roundtrip w recPos ⟨hwpos, hlen⟩ hser,
      ?vlen, rfl, ?ne⟩
    case vlen =>
      show ((viewBits w ord (avecDeref s'.written (recPos + fpInner)
        (resolveFromSlice bv.words (recPos + fpInner) r))).take bv.len).length = bv.len
      rw [avecDeref_of_serialized recPos hser, List.length_take]
      apply Nat.min_eq_left
      unfold viewBits
      rw [List.length_map, List.length_range, hlen]
      exact le_ceil_mul w bv.len hwpos
    case ne =>
      show bv.len ≠ bv.words.length * w
      intro hcon
      exact hna (hcon ▸ Dvd.intro bv.words.length (Nat.mul_comm _ _))

/-- C2 witness: the spec's example — 5 bits `[1,0,1,1,1]` in one 8-bit word
(word value 29, 3 padding bits). -/
theorem C2_witness :
    BVWF 8 ⟨[29], 5⟩ ∧ ¬ (8 ∣ (5 : Nat)) ∧
    ∃ s' r, bitvecSerializeWith ⟨[29], 5⟩ ⟨[], none⟩ = (s', .ok r) ∧
      bitvecDeserializeWith 8 (fun x => .ok x) (fun x => .ok x) s'.written 0
        ((bitvecResolveWith ⟨[29], 5⟩ 0 r s').2) = .ok ⟨[29], 5⟩ ∧
      (abvDeref 8 (fun i => i) s'.written 0
        ((bitvecResolveWith ⟨[29], 5⟩ 0 r s').2)).length =
        ((bitvecResolveWith ⟨[29], 5⟩ 0 r s').2).bit_len ∧
      ((bitvecResolveWith ⟨[29], 5⟩ 0 r s').2).bit_len = (⟨[29], 5⟩ : BitVecM).len ∧
      ((bitvecResolveWith ⟨[29], 5⟩ 0 r s').2).bit_len ≠
        ((bitvecResolveWith ⟨[29], 5⟩ 0 r s').2).inner.len * 8 :=
  ⟨by unfold BVWF; exact ⟨by decide, by decide⟩, by decide,
   C2_bitvec_roundtrip_nonaligned 8 (fun i => i) ⟨[29], 5⟩ ⟨[], none⟩ 0
     (by unfold BVWF; exact ⟨by decide, by decide⟩) (by decide) rfl⟩

/-! ### Error-condition characterizations -/

theorem writeItem_ok_bound {ι : Type} {it : ι} {s s' : Sink ι} {u : Unit} {b : Nat}
    (h : writeItem it s = (s', .ok u)) (hb : s.budget = some b) :
    s.written.length < b := by
  by_contra hcon
  push_neg at hcon
  rw [writeItem_failure it s b hb hcon] at h
  injection h with _ h2
  cases h2

theorem writeItems_ok_bound {ι : Type} {items : List ι} {s s' : Sink ι} {u : Unit}
    {b : Nat} (h : writeItems items s = (s', .ok u)) (hb : s.budget = some b)
    (hne : items ≠ []) : s.written.length + items.length ≤ b := by
  by_contra hcon
  push_neg at hcon
  rw [writeItems_failure items s b hb hcon hne] at h
  injection h with _ h2
  cases h2

theorem bitvecSerializeWith_ok_bound {bv : BitVecM} {s s' : Sink SinkItem}
    {r : VecResolver} {b : Nat} (h : bitvecSerializeWith bv s = (s', .ok r))
    (hb : s.budget = some b) : s.written.length + (bv.words.length + 1) ≤ b := by
  unfold bitvecSerializeWith at h
  rcases hs : serializeFromSlice bv.words s with ⟨s2, res⟩
  rw [hs] at h
  cases res with
  | error e =>
    have h2 : (s2, (Except.error e : Except SErr VecResolver)) = (s', .ok r) := h
    injection h2 with _ h2b
    cases h2b
  | ok r2 =>
    have h3 : (match usizeSerialize bv.len s2 with
        | (s3, Except.ok _) => (s3, Except.ok r2)
        | (s3, Except.error e) => (s3, (Except.error e : Except SErr VecResolver))) =
        (s', .ok r) := h
    rcases hu : usizeSerialize bv.len s2 with ⟨s3, res2⟩
    rw [hu] at h3
    cases res2 with
    | error e =>
      have h4 : (s3, (Except.error e : Except SErr VecResolver)) = (s', .ok r) := h3
      injection h4 with _ h4b
      cases h4b
    | ok u =>
      obtain ⟨hw1, hb1, _⟩ := serializeFromSlice_ok_inv hs
      have hlt := writeItem_ok_bound hu (by rw [hb1]; exact hb)
      rw [hw1] at hlt
      simp only [List.length_append, List.length_map] at hlt
      omega

theorem bitvecSerializeWith_no_rollback {bv : BitVecM} {s s' : Sink SinkItem}
    {e : SErr} (h : bitvecSerializeWith bv s = (s', .error e)) :
    ∃ k, s'.written = s.written ++
      ((bv.words.map SinkItem.word) ++ [SinkItem.scalar bv.len]).take k := by
  unfold bitvecSerializeWith at h
  rcases hs : serializeFromSlice bv.words s with ⟨s2, res⟩
  rw [hs] at h
  cases res with
  | error e2 =>
    have h2 : (s2, (Except.error e2 : Except SErr VecResolver)) = (s', .error e) := h
    injection h2 with h2a _
    subst h2a
    obtain ⟨_, b, hb, hlt, hwrit, _⟩ := serializeFromSlice_error_inv hs
    refine ⟨b - s.written.length, ?eqn⟩
    case eqn =>
      rw [List.take_append_of_le_length (by simp only [List.length_map]; omega)]
      exact hwrit
  | ok r2 =>
    have h3 : (match usizeSerialize bv.len s2 with
        | (s3, Except.ok _) => (s3, Except.ok r2)
        | (s3, Except.error e) => (s3, (Except.error e : Except SErr VecResolver))) =
        (s', .error e) := h
    rcases hu : usizeSerialize bv.len s2 with ⟨s3, res2⟩
    rw [hu] at h3
    cases res2 with
    | ok u =>
      have h4 : (s3, Except.ok r2) = (s', (.error e : Except SErr VecResolver)) := h3
      injection h4 with _ h4b
      cases h4b
    | error e2 =>
      have h4 : (s3, (Except.error e2 : Except SErr VecResolver)) = (s', .error e) := h3
      injection h4 with h4a _
      subst h4a
      obtain ⟨_, hs3, _⟩ := writeItem_error_inv hu
      obtain ⟨hw1, _, _⟩ := serializeFromSlice_ok_inv hs
      subst hs3
      refine ⟨bv.words.length, ?eqn⟩
      case eqn =>
        rw [List.take_append_of_le_length (by simp only [List.length_map]; omega)]
        rw [show bv.words.length = (bv.words.map SinkItem.word).length from
          (List.length_map _ _).symm, List.take_length]
        exact hw1

theorem foldl_insert_length {K V : Type} (hash : K → Nat) :
    ∀ (rest : List (K × V)) (sl : Slots K V),
      (rest.foldl (fun sl2 p => insertPair hash sl2 p.1 p.2) sl).length = sl.length := by
  intro rest
  induction rest with
  | nil => intro sl; rfl
  | cons p rest ih =>
    intro sl
    rw [List.foldl_cons, ih, insertPair_length]

theorem serializeFromIter_length {K V : Type} (hash : K → Nat) (pairs : List (K × V)) :
    (serializeFromIter hash pairs).length = capacityFor pairs.length := by
  unfold serializeFromIter
  rw [foldl_insert_length, List.length_replicate]

theorem hashMapSerializeWith_error_inv {K V : Type} {hash : K → Nat}
    {pairs : List (K × V)} {s s' : Sink (Option (K × V))} {e : SErr}
    (h : hashMapSerializeWith hash pairs s = (s', .error e)) :
    e = .sinkFailure ∧ (∃ b, s.budget = some b ∧
      b < s.written.length + capacityFor pairs.length) ∧
    ∃ k, s'.written = s.written ++ (serializeFromIter hash pairs).take k := by
  unfold hashMapSerializeWith at h
  rcases hw : writeItems (serializeFromIter hash pairs) s with ⟨s2, res⟩
  rw [hw] at h
  cases res with
  | ok u =>
    have h2 : (s2, Except.ok (HashMapResolver.mk s.written.length)) =
        (s', (.error e : Except SErr HashMapResolver)) := h
    injection h2 with _ h2b
    cases h2b
  | error e2 =>
    have h2 : (s2, (Except.error e2 : Except SErr HashMapResolver)) = (s', .error e) := h
    injection h2 with h2a h2b
    injection h2b with h2b
    subst h2a h2b
    obtain ⟨he, b, hb, hlt, hwrit, _⟩ := writeItems_error hw
    rw [serializeFromIter_length] at hlt
    exact ⟨he, ⟨b, hb, hlt⟩, b - s.written.length, hwrit⟩

theorem hashMapSerializeWith_ok_bound {K V : Type} {hash : K → Nat}
    {pairs : List (K × V)} {s s' : Sink (Option (K × V))} {r : HashMapResolver}
    {b : Nat} (h : hashMapSerializeWith hash pairs s = (s', .ok r))
    (hb : s.budget = some b) :
    s.written.length + capacityFor pairs.length ≤ b := by
  unfold hashMapSerializeWith at h
  rcases hw : writeItems (serializeFromIter hash pairs) s with ⟨s2, res⟩
  rw [hw] at h
  cases res with
  | error e2 =>
    have h2 : (s2, (Except.error e2 : Except SErr HashMapResolver)) = (s', .ok r) := h
    injection h2 with _ h2b
    cases h2b
  | ok u =>
    have hne : serializeFromIter hash pairs ≠ [] := by
      apply List.ne_nil_of_length_pos
      rw [serializeFromIter_length]
      simp [capacityFor]
    have := writeItems_ok_bound hw hb hne
    rw [serializeFromIter_length] at this
    exact this

theorem bitvecDeserializeWith_isErr_iff (w : Nat) (dw du : Nat → Except SErr Nat)
    (buf : List SinkItem) (recPos : Nat) (a : ABitVecRec) :
    isErrE (bitvecDeserializeWith w dw du buf recPos a) = true ↔
      ((∃ x ∈ avecDeref buf (recPos + fpInner) a.inner, isErrE (dw x) = true) ∨
        isErrE (du a.bit_len) = true) := by
  unfold bitvecDeserializeWith avecDeserialize
  cases hv : (avecDeref buf (recPos + fpInner) a.inner).mapM dw with
  | error e =>
    rw [bind_error]
    constructor
    · intro _
      exact Or.inl ((mapM_isErr_iff dw _).mp (by rw [hv]; rfl))
    · intro _
      rfl
  | ok vec =>
    rw [bind_ok]
    cases hdu : du a.bit_len with
    | error e =>
      rw [bind_error]
      constructor
      · intro _
        exact Or.inr rfl
      · intro _
        rfl
    | ok bl =>
      rw [bind_ok, pure_eq_ok]
      constructor
      · intro hcon
        simp [isErrE] at hcon
      · rintro (⟨x, hx, hfx⟩ | hdu2)
        · have herr := (mapM_isErr_iff dw _).mpr ⟨x, hx, hfx⟩
          rw [hv] at herr
          simp [isErrE] at herr
        · simp [isErrE] at hdu2

/-- C7: for both adapters, `serialize_with` fails exactly when the underlying
sink reports a failure (the budget is exceeded by the bytes to be written),
`deserialize_with` fails exactly when converting an individual archived key,
value or word fails, the first failure encountered is the one propagated, and
a failed serialization performs no rollback — the sink keeps the prefix of
items already written. -/
theorem C7_error_propagation (K V K2 V2 : Type) :
    (∀ (bv : BitVecM) (s : Sink SinkItem),
      isErrE (bitvecSerializeWith bv s).2 = true ↔
        ∃ b, s.budget = some b ∧ b < s.written.length + (bv.words.length + 1)) ∧
    (∀ (hash : K → Nat) (pairs : List (K × V)) (s : Sink (Option (K × V))),
      isErrE (hashMapSerializeWith hash pairs s).2 = true ↔
        ∃ b, s.budget = some b ∧ b < s.written.length + capacityFor pairs.length) ∧
    (∀ (dk : K → Except SErr K2) (dv : V → Except SErr V2) (sl : Slots K V),
      isErrE (hmDeserializeWith dk dv sl) = true ↔
        ∃ p ∈ hmEntries sl, isErrE (pairConv dk dv p) = true) ∧
    (∀ (dk : K → Except SErr K2) (dv : V → Except SErr V2) (sl : Slots K V) (e : SErr),
      hmDeserializeWith dk dv sl = .error e →
        ∃ pre p post, hmEntries sl = pre ++ p :: post ∧
          (∀ q ∈ pre, ∃ z, pairConv dk dv q = .ok z) ∧ pairConv dk dv p = .error e) ∧
    (∀ (w : Nat) (dw du : Nat → Except SErr Nat) (buf : List SinkItem) (recPos : Nat)
        (a : ABitVecRec),
      isErrE (bitvecDeserializeWith w dw du buf recPos a) = true ↔
        ((∃ x ∈ avecDeref buf (recPos + fpInner) a.inner, isErrE (dw x) = true) ∨
          isErrE (du a.bit_len) = true)) ∧
    (∀ (bv : BitVecM) (s s' : Sink SinkItem) (e : SErr),
      bitvecSerializeWith bv s = (s', .error e) →
        e = .sinkFailure ∧ ∃ k, s'.written = s.written ++
          ((bv.words.map SinkItem.word) ++ [SinkItem.scalar bv.len]).take k) ∧
    (∀ (hash : K → Nat) (pairs : List (K × V)) (s s' : Sink (Option (K × V))) (e : SErr),
      hashMapSerializeWith hash pairs s = (s', .error e) →
        e = .sinkFailure ∧
          ∃ k, s'.written = s.written ++ (serializeFromIter hash pairs).take k) := by
  refine ⟨?bvser, ?hmser, ?hmdeser, ?hmfirst, ?bvdeser, ?bvroll, ?hmroll⟩
  case bvser =>
    intro bv s
    constructor
    · intro herr
      rcases hres : bitvecSerializeWith bv s with ⟨s2, res⟩
      rw [hres] at herr
      cases res with
      | ok r => simp [isErrE] at herr
      | error e =>
        obtain ⟨_, b, hb, hlt, _⟩ := bitvecSerializeWith_error_inv hres
        exact ⟨b, hb, hlt⟩
    · rintro ⟨b, hb, hlt⟩
      rcases hres : bitvecSerializeWith bv s with ⟨s2, res⟩
      cases res with
      | error e => rfl
      | ok r =>
        have := bitvecSerializeWith_ok_bound hres hb
        omega
  case hmser =>
    intro hash pairs s
    constructor
    · intro herr
      rcases hres : hashMapSerializeWith hash pairs s with ⟨s2, res⟩
      rw [hres] at herr
      cases res with
      | ok r => simp [isErrE] at herr
      | error e =>
        obtain ⟨_, ⟨b, hb, hlt⟩, _⟩ := hashMapSerializeWith_error_inv hres
        exact ⟨b, hb, hlt⟩
    · rintro ⟨b, hb, hlt⟩
      rcases hres : hashMapSerializeWith hash pairs s with ⟨s2, res⟩
      cases res with
      | error e => rfl
      | ok r =>
        have := hashMapSerializeWith_ok_bound hres hb
        omega
  case hmdeser =>
    intro dk dv sl
    exact mapM_isErr_iff (pairConv dk dv) (hmEntries sl)
  case hmfirst =>
    intro dk dv sl e h
    exact mapM_error_first (pairConv dk dv) (hmEntries sl) e h
  case bvdeser =>
    intro w dw du buf recPos a
    exact bitvecDeserializeWith_isErr_iff w dw du buf recPos a
  case bvroll =>
    intro bv s s' e h
    exact ⟨(bitvecSerializeWith_error_inv h).1, bitvecSerializeWith_no_rollback h⟩
  case hmroll =>
    intro hash pairs s s' e h
    obtain ⟨he, _, hk⟩ := hashMapSerializeWith_error_inv h
    exact ⟨he, hk⟩

/-- C7 witness: a sink with budget 1 makes the bit-vector serialize fail, and
a failing key conversion makes the map deserialize fail. -/
theorem C7_witness :
    isErrE (bitvecSerializeWith ⟨[29], 5⟩ ⟨[], some 1⟩).2 = true ∧
    isErrE (hmDeserializeWith (fun _ => (.error .elementFailure : Except SErr Nat))
      (fun b => (.ok b : Except SErr Nat)) [some (1, 10)]) = true :=
  ⟨((C7_error_propagation Nat Nat Nat Nat).1 ⟨[29], 5⟩ ⟨[], some 1⟩).mpr
      ⟨1, rfl, by decide⟩,
   ((C7_error_propagation Nat Nat Nat Nat).2.2.1
      (fun _ => (.error .elementFailure : Except SErr Nat))
      (fun b => (.ok b : Except SErr Nat)) [some (1, 10)]).mpr
      ⟨(1, 10), by decide, by decide⟩⟩

/-- C8: serializing the empty pair sequence yields a zero-entry archived map
on which every lookup returns not-found, and serializing the empty bit-vector
succeeds on a non-failing sink, producing an archive with stored bit length
zero and zero backing words. -/
theorem C8_empty_boundary {K V : Type} [DecidableEq K] (hash : K → Nat)
    (pos pos2 : Nat) (r : HashMapResolver) (s : Sink (Option (K × V)))
    (sb : Sink SinkItem) (hb : sb.budget = none) :
    (∀ k : K, hmGet hash (serializeFromIter hash ([] : List (K × V))) k = none) ∧
    ((hashMapResolveWith ([] : List (K × V)) pos r s).2).count = 0 ∧
    ∃ sb' rv, bitvecSerializeWith ⟨[], 0⟩ sb = (sb', .ok rv) ∧
      ((bitvecResolveWith ⟨[], 0⟩ pos2 rv sb').2).bit_len = 0 ∧
      ((bitvecResolveWith ⟨[], 0⟩ pos2 rv sb').2).inner.len = 0 := by
  refine ⟨?get, rfl, ?bv⟩
  case get =>
    intro k
    obtain ⟨inv, _⟩ := serializeFromIter_inv hash ([] : List (K × V)) (by simp)
    exact hmGet_absent hash inv (by simp)
  case bv =>
    rcases hser : bitvecSerializeWith ⟨[], 0⟩ sb with ⟨sb', res⟩
    cases res with
    | error e =>
      obtain ⟨_, b, hbud, _, _⟩ := bitvecSerializeWith_error_inv hser
      rw [hb] at hbud
      cases hbud
    | ok rv => exact ⟨sb', rv, rfl, rfl, rfl⟩

/-- C8 witness: empty map at key 5, empty bit-vector on an unbounded sink. -/
theorem C8_witness :
    hmGet (fun k => k) (serializeFromIter (fun k => k) ([] : List (Nat × Nat))) 5 = none ∧
    ((hashMapResolveWith ([] : List (Nat × Nat)) 0 ⟨0⟩ ⟨[], none⟩).2).count = 0 ∧
    ∃ sb' rv, bitvecSerializeWith ⟨[], 0⟩ (⟨[], none⟩ : Sink SinkItem) = (sb', .ok rv) ∧
      ((bitvecResolveWith ⟨[], 0⟩ 0 rv sb').2).bit_len = 0 ∧
      ((bitvecResolveWith ⟨[], 0⟩ 0 rv sb').2).inner.len = 0 :=
  ⟨(C8_empty_boundary (K := Nat) (V := Nat) (fun k => k) 0 0 ⟨0⟩ ⟨[], none⟩
      ⟨[], none⟩ rfl).1 5,
   (C8_empty_boundary (K := Nat) (V := Nat) (fun k => k) 0 0 ⟨0⟩ ⟨[], none⟩
      ⟨[], none⟩ rfl).2.1,
   (C8_empty_boundary (K := Nat) (V := Nat) (fun k => k) 0 0 ⟨0⟩ ⟨[], none⟩
      ⟨[], none⟩ rfl).2.2⟩

/-- C10: in map deserialization the key of an entry is converted before its
value; if an entry's key conversion fails after a successfully converted
prefix, that failure is the result — for every value converter `dv`, every
value `v` paired with the key, and every list of later entries, so the
entry's value conversion is never attempted and no further entries are
processed. -/
theorem C10_key_before_value {K V K2 V2 : Type} (dk : K → Except SErr K2)
    (dv : V → Except SErr V2) (sl : Slots K V) (pre post : List (K × V))
    (k : K) (v : V) (e : SErr)
    (hsplit : hmEntries sl = pre ++ (k, v) :: post)
    (hpre : ∀ q ∈ pre, ∃ z, pairConv dk dv q = .ok z)
    (hk : dk k = .error e) :
    hmDeserializeWith dk dv sl = .error e := by
  unfold hmDeserializeWith
  rw [hsplit]
  apply mapM_append_error (pairConv dk dv) e pre (k, v) post hpre
  show (dk k >>= fun k2 => dv v >>= fun v2 => pure (k2, v2)) = Except.error e
  rw [hk, bind_error]

/-- C10 witness: a failing key conversion on the first entry makes the whole
deserialization fail with that error, with the value converter succeeding. -/
theorem C10_witness :
    hmDeserializeWith (fun _ => (.error .elementFailure : Except SErr Nat))
      (fun b => (.ok b : Except SErr Nat)) [some (1, 10), some (2, 20)] =
      .error .elementFailure :=
  C10_key_before_value (fun _ => (.error .elementFailure : Except SErr Nat))
    (fun b => (.ok b : Except SErr Nat)) [some (1, 10), some (2, 20)]
    [] [(2, 20)] 1 10 .elementFailure (by rfl)
    (by intro q hq; exact absurd hq (List.not_mem_nil q)) rfl

end RkyvWrappers
